import Mathlib

/-!
Verification development for the autoplate repository (Go).

The Go program builds an in-memory registry `map[string]string` from
license-plate records streamed out of an XML file (possibly inside a zip
archive, possibly downloaded from an FTP drop).  The definitions below are
a shallow embedding of the relevant Go functions; each definition carries
a comment pointing at the Go source it embeds.
-/

/-! ## Data model: the XML record structures (part_000 lines 18-44) -/

/-- Embeds the Go struct `Model` (field `KoeretoejModelTypeNavn`). -/
structure Model where
  KoeretoejModelTypeNavn : String
deriving DecidableEq, Repr

/-- Embeds the Go struct `KoeretoejBetegnelseStruktur`. -/
structure KoeretoejBetegnelseStruktur where
  KoeretoejMaerkeTypeNavn : String
  Model : Model
deriving DecidableEq, Repr

/-- Embeds the Go struct `KoeretoejOplysningGrundStruktur`. -/
structure KoeretoejOplysningGrundStruktur where
  KoeretoejBetegnelseStruktur : KoeretoejBetegnelseStruktur
deriving DecidableEq, Repr

/-- Embeds the Go struct `Statistik`: one decoded record element. -/
structure Statistik where
  RegistreringNummerNummer : String
  KoeretoejOplysningGrundStruktur : KoeretoejOplysningGrundStruktur
deriving DecidableEq, Repr

/-- The record identifier (`stat.RegistreringNummerNummer`). -/
def Statistik.plateId (s : Statistik) : String :=
  s.RegistreringNummerNummer

/-- The make name extracted in `streamXML` line 183. -/
def Statistik.makeName (s : Statistik) : String :=
  s.KoeretoejOplysningGrundStruktur.KoeretoejBetegnelseStruktur.KoeretoejMaerkeTypeNavn

/-- The model name extracted in `streamXML` line 185. -/
def Statistik.modelName (s : Statistik) : String :=
  s.KoeretoejOplysningGrundStruktur.KoeretoejBetegnelseStruktur.Model.KoeretoejModelTypeNavn

/-- The description built by the string builder in `streamXML` lines 182-186:
make, one space, model. -/
def Statistik.descText (s : Statistik) : String :=
  s.makeName ++ " " ++ s.modelName

/-- Convenience constructor for concrete records in examples. -/
def mkStat (id mk md : String) : Statistik :=
  ⟨id, ⟨⟨mk, ⟨md⟩⟩⟩⟩

/-! ## PlateRegistry: the Go `map[string]string` (part_000 line 74, 187)

A Go map is embedded as an association list whose keys are kept distinct:
assignment `plates[k] = v` updates the entry for `k` if present, otherwise
adds one.  Iteration order of a Go map is unspecified, so nothing below
depends on the order of the list beyond key distinctness. -/

/-- The registry type: the Go `map[string]string`. -/
abbrev Registry := List (String × String)

/-- Embeds the Go map assignment `plates[k] = v` (part_000 line 187):
overwrite the entry for `k` if present, else add the pair. -/
def regInsert : Registry → String → String → Registry
  | [], k, v => [(k, v)]
  | p :: rest, k, v =>
    if p.1 = k then (k, v) :: rest else p :: regInsert rest k v

/-! ## RecordScanner: `streamXML` (part_000 lines 155-198)

`streamXML` pulls tokens from an XML decoder.  The token stream of one
entry is abstracted as a list of events: a start element named
"Statistik" together with the outcome of the subsequent `DecodeElement`
call (`none` when decoding fails), any other token, or a hard failure of
`decoder.Token()` itself.  `io.EOF` is the end of the list. -/

/-- One event seen by the `streamXML` loop. -/
inductive XmlToken where
  /-- A `Statistik` start element; the payload is the result of
  `decoder.DecodeElement` (`none` when decoding fails). -/
  | statistik (res : Option Statistik)
  /-- Any other token (other start elements, text, end elements, ...). -/
  | other
  /-- A non-EOF error from `decoder.Token()`. -/
  | tokenError (msg : String)
deriving DecidableEq, Repr

/-- Whether a token is a hard stream failure. -/
def XmlToken.isError : XmlToken → Bool
  | XmlToken.tokenError _ => true
  | _ => false

/-- The outcome of one `streamXML` call: the returned count, the registry
(the Go map is mutated in place; here it is threaded), the returned error,
and the number of per-record decode warnings logged. -/
structure ScanResult where
  count : Nat
  registry : Registry
  streamErr : Option String
  warnings : Nat
deriving DecidableEq, Repr

/-- Embeds the loop of `streamXML` (part_000 lines 163-197):
on a stream error return the count so far and the error; on a decode
failure log a warning and continue; on a decoded record with a non-empty
identifier write `make ++ " " ++ model` into the map and count it. -/
def streamXML : List XmlToken → Registry → ScanResult
  | [], reg => ⟨0, reg, none, 0⟩
  | XmlToken.tokenError e :: _, reg => ⟨0, reg, some e, 0⟩
  | XmlToken.other :: rest, reg => streamXML rest reg
  | XmlToken.statistik none :: rest, reg =>
    let r := streamXML rest reg
    ⟨r.count, r.registry, r.streamErr, r.warnings + 1⟩
  | XmlToken.statistik (some stat) :: rest, reg =>
    if stat.plateId ≠ "" then
      let r := streamXML rest (regInsert reg stat.plateId stat.descText)
      ⟨r.count + 1, r.registry, r.streamErr, r.warnings⟩
    else
      streamXML rest reg

/-- The identifiers of the successfully decoded records with a non-empty
identifier, in stream order, up to the first stream error (the part of the
stream the scanner actually consumes). -/
def nonemptyIds : List XmlToken → List String
  | [] => []
  | XmlToken.tokenError _ :: _ => []
  | XmlToken.statistik (some s) :: rest =>
    if s.plateId ≠ "" then s.plateId :: nonemptyIds rest else nonemptyIds rest
  | _ :: rest => nonemptyIds rest

/-- The description of the last successfully decoded record carrying the
identifier `k`, among the records the scanner consumes: a later record
with the same identifier shadows an earlier one. -/
def lastDesc (k : String) : List XmlToken → Option String
  | [] => none
  | XmlToken.tokenError _ :: _ => none
  | XmlToken.statistik (some s) :: rest =>
    (match lastDesc k rest with
     | some d => some d
     | none => if s.plateId = k then some s.descText else none)
  | _ :: rest => lastDesc k rest

/-! ## ArchiveReader: `processZipFile` (part_000 lines 118-153)

A zip archive is embedded as a flag for whether `zip.OpenReader` succeeds
together with the list of its entries; an entry carries its name, its
directory flag, whether `zipFile.Open()` succeeds, and the token stream of
its decompressed content. -/

/-- One entry of a zip archive, as seen by the `processZipFile` loop. -/
structure ZipEntry where
  name : String
  isDir : Bool
  openOk : Bool
  tokens : List XmlToken
deriving DecidableEq, Repr

/-- A zip archive: whether `zip.OpenReader` succeeds, and the entries. -/
structure ZipArchive where
  openOk : Bool
  entries : List ZipEntry
deriving DecidableEq, Repr

/-- The observable outcome of `processZipFile`: the accumulated processed
count, the final registry, and the number of warnings logged. -/
structure ZipResult where
  processedCount : Nat
  registry : Registry
  warnings : Nat
deriving DecidableEq, Repr

/-- Models `strings.ToLower` as used on entry names.  Go lowercases full
Unicode; for the comparison against the ASCII suffix ".xml" the two agree,
since no non-ASCII rune lowercases to an ASCII letter of ".xml" within the
bytes available. -/
def lowerStr (s : String) : String :=
  String.mk (s.data.map Char.toLower)

/-- Models `strings.HasSuffix` on the character level (equivalent to the
byte level for well-formed UTF-8, since UTF-8 is self-synchronizing). -/
def strEndsWith (s suffix : String) : Bool :=
  suffix.data.isSuffixOf s.data

/-- The entries the loop does not skip (part_000 line 128): not a
directory, and the lowercased name ends with ".xml". -/
def keepEntry (e : ZipEntry) : Bool :=
  !e.isDir && strEndsWith (lowerStr e.name) ".xml"

/-- Embeds the entry loop of `processZipFile` (part_000 lines 125-151):
skip directories and non-".xml" names; on `Open` failure warn and
continue; scan the entry with `streamXML`; on a stream error warn and
continue (the count of that entry is dropped, the map keeps the records
already inserted); otherwise accumulate the count. -/
def processEntries : List ZipEntry → Registry → ZipResult
  | [], reg => ⟨0, reg, 0⟩
  | e :: rest, reg =>
    if e.isDir || !(strEndsWith (lowerStr e.name) ".xml") then
      processEntries rest reg
    else if !e.openOk then
      let r := processEntries rest reg
      ⟨r.processedCount, r.registry, r.warnings + 1⟩
    else
      let s := streamXML e.tokens reg
      match s.streamErr with
      | some _ =>
        let r := processEntries rest s.registry
        ⟨r.processedCount, r.registry, r.warnings + s.warnings + 1⟩
      | none =>
        let r := processEntries rest s.registry
        ⟨r.processedCount + s.count, r.registry, r.warnings + s.warnings⟩

/-- Embeds `processZipFile` (part_000 lines 118-124): failing to open the
container is the only fatal error; otherwise the entry loop runs and the
function returns success. -/
def processZipFile (ar : ZipArchive) (reg : Registry) : Except String ZipResult :=
  if ar.openOk then Except.ok (processEntries ar.entries reg)
  else Except.error "failed to open zip file"

/-! ## SourceLocator: the selection loop of `downloadAndProcess`
(part_000 lines 220-231)

An FTP listing entry carries a name, a size, a modification time (an
abstract timestamp ordered as `Int`; `Time.After` is `<` reversed), and an
entry type. -/

/-- The `ftp.EntryType` values relevant to the selection. -/
inductive EntryType where
  | file
  | folder
  | link
deriving DecidableEq, Repr

/-- Embeds `ftp.Entry` as used by the selection loop. -/
structure FtpEntry where
  name : String
  size : Nat
  time : Int
  typ : EntryType
deriving DecidableEq, Repr

/-- The filter of the selection loop (part_000 line 222): an entry of kind
file whose name ends with ".zip" (case-sensitive). -/
def isZipCandidate (e : FtpEntry) : Bool :=
  (e.typ == EntryType.file) && strEndsWith e.name ".zip"

/-- Embeds the `newestZip` loop (part_000 lines 220-227): `best` is the
`newestZip` variable; `entry.Time.After(newestZip.Time)` is a strict
comparison, so ties keep the earlier survivor. -/
def findNewestZipAux : Option FtpEntry → List FtpEntry → Option FtpEntry
  | best, [] => best
  | best, e :: rest =>
    if (e.typ == EntryType.file) && strEndsWith e.name ".zip" then
      match best with
      | none => findNewestZipAux (some e) rest
      | some cur =>
        if cur.time < e.time then findNewestZipAux (some e) rest
        else findNewestZipAux (some cur) rest
    else findNewestZipAux best rest

/-- The selection over a whole listing, starting from `newestZip = nil`. -/
def findNewestZip (entries : List FtpEntry) : Option FtpEntry :=
  findNewestZipAux none entries

/-- Embeds part_000 lines 229-231: a missing candidate is the error
"no zip files found in directory". -/
def locateNewestZip (entries : List FtpEntry) : Except String FtpEntry :=
  match findNewestZip entries with
  | some e => Except.ok e
  | none => Except.error "no zip files found in directory"

/-- The accumulator loop restricted to the surviving candidates (the
filter test removed). -/
def pickBest : Option FtpEntry → List FtpEntry → Option FtpEntry
  | best, [] => best
  | none, c :: cs => pickBest (some c) cs
  | some cur, c :: cs =>
    if cur.time < c.time then pickBest (some c) cs
    else pickBest (some cur) cs

/-! ## ProgressTrackingReader: `ProgressReader.Read` (part_000 lines 46-67)

One call of the underlying reader produces a chunk of bytes (`n` is its
length) and possibly an error; `ProgressReader.Read` relays both
unchanged.  `total` is the `int64` field set from the remote size;
`current` and `lastPrint` start at the Go zero value 0.  All arithmetic
stays far below 2^63 for any real transfer, so `int64` overflow is not
modelled; with `current ≥ 0` and `total > 0`, Go's `int64` division
equals the floor division on `Nat` used here. -/

/-- What one call of the wrapped reader returns: the bytes placed in the
buffer and the error value. -/
structure ReadOutcome where
  data : List Nat
  err : Option String
deriving DecidableEq, Repr

/-- The `ProgressReader` state (part_000 lines 47-52). -/
structure ProgressReader where
  total : Int
  current : Nat
  lastPrint : Nat
deriving DecidableEq, Repr

/-- Embeds `ProgressReader.Read` (part_000 lines 54-67): add `n` to
`current`; when `total > 0` compute `current * 100 / total` and emit it
exactly when it strictly exceeds `lastPrint`; return the underlying
chunk and error unchanged. -/
def ProgressReader.read (pr : ProgressReader) (chunk : ReadOutcome) :
    ProgressReader × ReadOutcome × Option Nat :=
  let current := pr.current + chunk.data.length
  if 0 < pr.total then
    let percentDone := current * 100 / pr.total.toNat
    if pr.lastPrint < percentDone then
      (⟨pr.total, current, percentDone⟩, chunk, some percentDone)
    else
      (⟨pr.total, current, pr.lastPrint⟩, chunk, none)
  else
    (⟨pr.total, current, pr.lastPrint⟩, chunk, none)

/-- A sequence of reads relayed through the wrapper: final state, the
relayed outcomes, and the list of emitted percentages in order. -/
def runReads : ProgressReader → List ReadOutcome →
    ProgressReader × List ReadOutcome × List Nat
  | pr, [] => (pr, [], [])
  | pr, c :: rest =>
    let step := pr.read c
    let r := runReads step.1 rest
    (r.1, step.2.1 :: r.2.1,
      match step.2.2 with
      | some p => p :: r.2.2
      | none => r.2.2)

/-! ## Local input dispatch: `processLocalFile` (part_000 lines 91-116)

`ext := strings.ToLower(filePath[len(filePath)-4:])` slices the Go string
at the byte level: `len` is the byte length and a path of fewer than four
bytes makes the start index negative, which panics at runtime.  A path is
therefore embedded as its list of UTF-8 bytes, and the dispatcher returns
`panicked` exactly when Go would panic.  `strings.ToLower` is modelled on
the ASCII range; no non-ASCII rune lowercases into the ASCII letters of
".xml"/".zip" inside a four-byte window, so the comparisons agree. -/

/-- ASCII lowercasing of one byte. -/
def toLowerByte (b : Nat) : Nat :=
  if 65 ≤ b ∧ b ≤ 90 then b + 32 else b

/-- The UTF-8 bytes of ".xml". -/
def xmlExtBytes : List Nat := [46, 120, 109, 108]

/-- The UTF-8 bytes of ".zip". -/
def zipExtBytes : List Nat := [46, 122, 105, 112]

/-- Which branch of the `switch` in `processLocalFile` runs. -/
inductive LocalDispatch where
  /-- The `.xml` branch (open the file and stream it). -/
  | xmlBranch
  /-- The `.zip` branch (delegate to `processZipFile`). -/
  | zipBranch
  /-- The `default` branch: the unsupported-file-type error. -/
  | unsupported
  /-- The slice `filePath[len(filePath)-4:]` panicked (index out of range). -/
  | panicked
deriving DecidableEq, Repr

/-- Embeds the dispatch of `processLocalFile` (part_000 lines 92-115) on
the UTF-8 bytes of the path. -/
def processLocalFile (filePath : List Nat) : LocalDispatch :=
  if filePath.length < 4 then LocalDispatch.panicked
  else
    let ext := (filePath.drop (filePath.length - 4)).map toLowerByte
    if ext = xmlExtBytes then LocalDispatch.xmlBranch
    else if ext = zipExtBytes then LocalDispatch.zipBranch
    else LocalDispatch.unsupported

/-- The number of characters (decoded runes) a UTF-8 byte list holds:
every byte except the continuation bytes 0x80-0xBF starts a character. -/
def utf8CharCount (bs : List Nat) : Nat :=
  (bs.filter (fun b => decide (b < 128 ∨ 192 ≤ b))).length

/-! ## ResultReporter: `displayResults` (part_000 lines 265-294)

`sort.Slice` sorts the entry slice with the comparator
`entries[i].plate < entries[j].plate`.  The sort need not be stable, but
the keys of a map-derived slice are distinct, so the sorted arrangement
of the keys is unique; it is modelled with insertion sort over the
reflexive closure of the comparator. -/

/-- The comparator ordering of `displayResults` (part_000 line 278),
closed reflexively for the sort model. -/
def plateLE (a b : String × String) : Prop :=
  a.1 ≤ b.1

instance : DecidableRel plateLE :=
  fun a b => inferInstanceAs (Decidable (a.1 ≤ b.1))

instance : IsTotal (String × String) plateLE :=
  ⟨fun a b => le_total a.1 b.1⟩

instance : IsTrans (String × String) plateLE :=
  ⟨fun _ _ _ h1 h2 => le_trans h1 h2⟩

/-- Embeds `displayResults` (part_000 lines 265-294): sort the entries by
plate, print the first `displayLimit = min(len, 10)` rows, and print one
remainder line when entries remain.  The returned pair is the printed
rows and the count on the remainder line (if printed). -/
def displayResults (plates : Registry) : List (String × String) × Option Nat :=
  let entries := List.insertionSort plateLE plates
  let displayLimit := if entries.length < 10 then entries.length else 10
  (entries.take displayLimit,
    if displayLimit < entries.length then some (entries.length - displayLimit)
    else none)

/-! ## Concrete data for the scenario checks -/

/-- The spec scenario: the identifier "AB12345" registered twice, with
descriptions "Toyota Corolla" then "Toyota Yaris". -/
def demoTokens : List XmlToken :=
  [XmlToken.statistik (some (mkStat "AB12345" "Toyota" "Corolla")),
   XmlToken.other,
   XmlToken.statistik (some (mkStat "AB12345" "Toyota" "Yaris"))]

/-- The spec scenario: one entry with 3 well-formed records and 1
malformed record. -/
def scenarioTokens : List XmlToken :=
  [XmlToken.statistik (some (mkStat "AA11111" "Toyota" "Corolla")),
   XmlToken.statistik (some (mkStat "BB22222" "Volvo" "V60")),
   XmlToken.statistik none,
   XmlToken.statistik (some (mkStat "CC33333" "Ford" "Focus"))]

/-- An archive whose single entry holds `scenarioTokens`. -/
def scenarioArchive : ZipArchive :=
  ⟨true, [⟨"plates.xml", false, true, scenarioTokens⟩]⟩

/-- A remote listing with a non-candidate file, a folder named like a
candidate, and a timestamp tie between "a.zip" and "b.zip". -/
def demoListing : List FtpEntry :=
  [⟨"notes.txt", 10, 50, EntryType.file⟩,
   ⟨"old.zip", 10, 5, EntryType.file⟩,
   ⟨"a.zip", 20, 9, EntryType.file⟩,
   ⟨"dir.zip", 20, 99, EntryType.folder⟩,
   ⟨"b.zip", 30, 9, EntryType.file⟩]

/-- A registry of 12 entries with distinct keys, for the display check. -/
def demoReg12 : Registry :=
  [("K01", "a"), ("K02", "b"), ("K03", "c"), ("K04", "d"), ("K05", "e"),
   ("K06", "f"), ("K07", "g"), ("K08", "h"), ("K09", "i"), ("K10", "j"),
   ("K11", "k"), ("K12", "l")]

/-! ## Lemmas -/

theorem lookup_cons_eq (p : String × String) (l : Registry) :
    List.lookup p.1 (p :: l) = some p.2 := by
  cases p with
  | mk a b => simp [List.lookup]

theorem lookup_cons_ne (p : String × String) (l : Registry) (k : String)
    (h : k ≠ p.1) : List.lookup k (p :: l) = List.lookup k l := by
  cases p with
  | mk a b =>
    have hb : (k == a) = false := beq_eq_false_iff_ne.mpr h
    simp [List.lookup, hb]

theorem lookup_regInsert_self (reg : Registry) (k v : String) :
    List.lookup k (regInsert reg k v) = some v := by
  induction reg with
  | nil => simp [regInsert, List.lookup]
  | cons p rest ih =>
    by_cases h : p.1 = k
    · rw [regInsert, if_pos h]
      exact lookup_cons_eq (k, v) rest
    · rw [regInsert, if_neg h, lookup_cons_ne p _ k (fun hh => h hh.symm), ih]

theorem lookup_regInsert_ne (reg : Registry) (k v k' : String) (h : k' ≠ k) :
    List.lookup k' (regInsert reg k v) = List.lookup k' reg := by
  induction reg with
  | nil =>
    have hb : (k' == k) = false := beq_eq_false_iff_ne.mpr h
    simp [regInsert, List.lookup, hb]
  | cons p rest ih =>
    by_cases hp : p.1 = k
    · rw [regInsert, if_pos hp, lookup_cons_ne (k, v) rest k' h,
        lookup_cons_ne p rest k' (hp ▸ h)]
    · by_cases hk' : k' = p.1
      · subst hk'
        rw [regInsert, if_neg hp, lookup_cons_eq p _, lookup_cons_eq p _]
      · rw [regInsert, if_neg hp, lookup_cons_ne p _ k' hk',
          lookup_cons_ne p _ k' hk', ih]

theorem keys_regInsert_mem (reg : Registry) (k v : String)
    (h : k ∈ reg.map Prod.fst) :
    (regInsert reg k v).map Prod.fst = reg.map Prod.fst := by
  induction reg with
  | nil => simp at h
  | cons p rest ih =>
    by_cases hp : p.1 = k
    · simp [regInsert, hp]
    · simp only [List.map_cons, List.mem_cons] at h
      rcases h with h | h

      · exact absurd h.symm hp
      · simp [regInsert, hp, ih h]

theorem keys_regInsert_notMem (reg : Registry) (k v : String)
    (h : k ∉ reg.map Prod.fst) :
    (regInsert reg k v).map Prod.fst = reg.map Prod.fst ++ [k] := by
  induction reg with
  | nil => simp [regInsert]
  | cons p rest ih =>
    simp only [List.map_cons, List.mem_cons, not_or] at h
    have hp : p.1 ≠ k := fun hh => h.1 hh.symm
    simp [regInsert, hp, ih h.2]

theorem mem_keys_regInsert (reg : Registry) (k v k' : String) :
    k' ∈ (regInsert reg k v).map Prod.fst ↔ k' ∈ reg.map Prod.fst ∨ k' = k := by
  by_cases h : k ∈ reg.map Prod.fst
  · rw [keys_regInsert_mem reg k v h]
    constructor
    · exact Or.inl
    · rintro (hh | rfl)
      · exact hh
      · exact h
  · rw [keys_regInsert_notMem reg k v h]
    simp

theorem nodup_keys_regInsert (reg : Registry) (k v : String)
    (h : (reg.map Prod.fst).Nodup) :
    ((regInsert reg k v).map Prod.fst).Nodup := by
  by_cases hk : k ∈ reg.map Prod.fst
  · rwa [keys_regInsert_mem reg k v hk]
  · rw [keys_regInsert_notMem reg k v hk]
    refine List.Nodup.append h (List.nodup_singleton k) ?_
    intro a ha hb
    simp only [List.mem_singleton] at hb
    subst hb
    exact hk ha

theorem fst_mem_regInsert (reg : Registry) (k v : String) (p : String × String)
    (hp : p ∈ regInsert reg k v) :
    p.1 ∈ (regInsert reg k v).map Prod.fst :=
  List.mem_map_of_mem Prod.fst hp

theorem keys_nonempty_regInsert (reg : Registry) (k v : String)
    (hreg : ∀ p ∈ reg, p.1 ≠ "") (hk : k ≠ "") :
    ∀ p ∈ regInsert reg k v, p.1 ≠ "" := by
  induction reg with
  | nil =>
    intro p hp
    simp [regInsert] at hp
    subst hp
    exact hk
  | cons q rest ih =>
    intro p hp
    by_cases hq : q.1 = k
    · simp only [regInsert, hq, if_true, List.mem_cons] at hp
      rcases hp with rfl | hp
      · exact hk
      · exact hreg p (List.mem_cons_of_mem q hp)
    · simp only [regInsert, hq, if_false, List.mem_cons] at hp
      rcases hp with rfl | hp
      · exact hreg p (List.mem_cons_self p rest)
      · exact ih (fun r hr => hreg r (List.mem_cons_of_mem q hr)) p hp

theorem streamXML_count (tokens : List XmlToken) (reg : Registry) :
    (streamXML tokens reg).count = (nonemptyIds tokens).length := by
  induction tokens generalizing reg with
  | nil => rfl
  | cons t rest ih =>
    cases t with
    | tokenError e => rfl
    | other => simpa [streamXML, nonemptyIds] using ih reg
    | statistik res =>
      cases res with
      | none => simpa [streamXML, nonemptyIds] using ih reg
      | some s =>
        by_cases h : s.plateId = ""
        · simp [streamXML, nonemptyIds, h, ih]
        · simp [streamXML, nonemptyIds, h, ih]

theorem streamXML_lookup (tokens : List XmlToken) (reg : Registry)
    (k : String) (hk : k ≠ "") :
    List.lookup k (streamXML tokens reg).registry =
      ((lastDesc k tokens).or (List.lookup k reg)) := by
  induction tokens generalizing reg with
  | nil => simp [streamXML, lastDesc]
  | cons t rest ih =>
    cases t with
    | tokenError e => simp [streamXML, lastDesc]
    | other => simpa [streamXML, lastDesc] using ih reg
    | statistik res =>
      cases res with
      | none => simpa [streamXML, lastDesc] using ih reg
      | some s =>
        by_cases h : s.plateId = ""
        · rw [streamXML, if_neg (fun hc => hc h), ih reg]
          have hne : ¬ ("" : String) = k := fun hh => hk hh.symm
          simp only [lastDesc, h, if_neg hne]
          cases lastDesc k rest <;> simp
        · rw [streamXML]
          rw [if_pos h]
          simp only [lastDesc]
          rw [ih (regInsert reg s.plateId s.descText)]
          cases hld : lastDesc k rest with
          | some d => simp [hld]
          | none =>
            by_cases hid : s.plateId = k
            · subst hid
              simp [hld, lookup_regInsert_self]
            · simp [hld, hid, lookup_regInsert_ne reg s.plateId s.descText k
                (fun hh => hid hh.symm)]

theorem streamXML_mem_keys (tokens : List XmlToken) (reg : Registry)
    (k : String) :
    k ∈ (streamXML tokens reg).registry.map Prod.fst ↔
      k ∈ reg.map Prod.fst ∨ k ∈ nonemptyIds tokens := by
  induction tokens generalizing reg with
  | nil => simp [streamXML, nonemptyIds]
  | cons t rest ih =>
    cases t with
    | tokenError e => simp [streamXML, nonemptyIds]
    | other => simpa [streamXML, nonemptyIds] using ih reg
    | statistik res =>
      cases res with
      | none => simpa [streamXML, nonemptyIds] using ih reg
      | some s =>
        by_cases h : s.plateId = ""
        · simp [streamXML, nonemptyIds, h, ih]
        · rw [streamXML]
          rw [if_pos h]
          simp only [nonemptyIds, if_pos h]
          rw [show (let r := streamXML rest (regInsert reg s.plateId s.descText);
              ScanResult.mk (r.count + 1) r.registry r.streamErr r.warnings).registry
              = (streamXML rest (regInsert reg s.plateId s.descText)).registry from rfl]
          rw [ih (regInsert reg s.plateId s.descText)]
          rw [mem_keys_regInsert]
          constructor
          · rintro ((hm | rfl) | hm)
            · exact Or.inl hm
            · exact Or.inr (List.mem_cons_self _ _)
            · exact Or.inr (List.mem_cons_of_mem _ hm)
          · rintro (hm | hm)
            · exact Or.inl (Or.inl hm)
            · rcases List.mem_cons.mp hm with rfl | hm
              · exact Or.inl (Or.inr rfl)
              · exact Or.inr hm

theorem streamXML_nodup_keys (tokens : List XmlToken) (reg : Registry)
    (h : (reg.map Prod.fst).Nodup) :
    ((streamXML tokens reg).registry.map Prod.fst).Nodup := by
  induction tokens generalizing reg with
  | nil => exact h
  | cons t rest ih =>
    cases t with
    | tokenError e => exact h
    | other => exact ih reg h
    | statistik res =>
      cases res with
      | none => exact ih reg h
      | some s =>
        by_cases hid : s.plateId = ""
        · simpa [streamXML, hid] using ih reg h
        · simpa [streamXML, hid] using
            ih (regInsert reg s.plateId s.descText)
              (nodup_keys_regInsert reg s.plateId s.descText h)

theorem streamXML_keys_nonempty (tokens : List XmlToken) (reg : Registry)
    (h : ∀ p ∈ reg, p.1 ≠ "") :
    ∀ p ∈ (streamXML tokens reg).registry, p.1 ≠ "" := by
  induction tokens generalizing reg with
  | nil => exact h
  | cons t rest ih =>
    cases t with
    | tokenError e => exact h
    | other => exact ih reg h
    | statistik res =>
      cases res with
      | none => exact ih reg h
      | some s =>
        by_cases hid : s.plateId = ""
        · simpa [streamXML, hid] using ih reg h
        · simpa [streamXML, hid] using
            ih (regInsert reg s.plateId s.descText)
              (keys_nonempty_regInsert reg s.plateId s.descText h hid)

theorem streamXML_keys_ext (tokens : List XmlToken) (reg : Registry) :
    ∃ ext, (streamXML tokens reg).registry.map Prod.fst
        = reg.map Prod.fst ++ ext
      ∧ ext.length ≤ (streamXML tokens reg).count := by
  induction tokens generalizing reg with
  | nil => exact ⟨[], by simp [streamXML]⟩
  | cons t rest ih =>
    cases t with
    | tokenError e => exact ⟨[], by simp [streamXML]⟩
    | other => simpa [streamXML] using ih reg
    | statistik res =>
      cases res with
      | none => simpa [streamXML] using ih reg
      | some s =>
        by_cases h : s.plateId = ""
        · simpa [streamXML, h] using ih reg
        · rw [streamXML, if_pos h]
          by_cases hmem : s.plateId ∈ reg.map Prod.fst
          · obtain ⟨ext, hkeys, hlen⟩ := ih (regInsert reg s.plateId s.descText)
            refine ⟨ext, ?_, ?_⟩
            · simpa [keys_regInsert_mem reg s.plateId s.descText hmem] using hkeys
            · exact Nat.le_succ_of_le hlen
          · obtain ⟨ext, hkeys, hlen⟩ := ih (regInsert reg s.plateId s.descText)
            refine ⟨s.plateId :: ext, ?_, ?_⟩
            · show List.map Prod.fst
                  (streamXML rest (regInsert reg s.plateId s.descText)).registry
                = List.map Prod.fst reg ++ s.plateId :: ext
              rw [hkeys, keys_regInsert_notMem reg s.plateId s.descText hmem,
                List.append_assoc]
              rfl
            · show (s.plateId :: ext).length ≤
                (streamXML rest (regInsert reg s.plateId s.descText)).count + 1
              simpa using Nat.succ_le_succ hlen

theorem streamXML_noErr (tokens : List XmlToken) (reg : Registry)
    (h : ∀ t ∈ tokens, t.isError = false) :
    (streamXML tokens reg).streamErr = none := by
  induction tokens generalizing reg with
  | nil => rfl
  | cons t rest ih =>
    cases t with
    | tokenError e =>
      exact absurd (h _ (List.mem_cons_self _ _)) (by simp [XmlToken.isError])
    | other => exact ih reg (fun t ht => h t (List.mem_cons_of_mem _ ht))
    | statistik res =>
      have hrest : ∀ t ∈ rest, t.isError = false :=
        fun t ht => h t (List.mem_cons_of_mem _ ht)
      cases res with
      | none => simpa [streamXML] using ih reg hrest
      | some s =>
        by_cases hid : s.plateId = ""
        · simpa [streamXML, hid] using ih reg hrest
        · simpa [streamXML, hid] using
            ih (regInsert reg s.plateId s.descText) hrest

theorem streamXML_splitErr (pre post : List XmlToken) (e : String)
    (reg : Registry) (h : ∀ t ∈ pre, t.isError = false) :
    streamXML (pre ++ XmlToken.tokenError e :: post) reg =
      ⟨(streamXML pre reg).count, (streamXML pre reg).registry,
        some e, (streamXML pre reg).warnings⟩ := by
  induction pre generalizing reg with
  | nil => rfl
  | cons t rest ih =>
    have hrest : ∀ t ∈ rest, t.isError = false :=
      fun t ht => h t (List.mem_cons_of_mem _ ht)
    cases t with
    | tokenError msg =>
      exact absurd (h _ (List.mem_cons_self _ _)) (by simp [XmlToken.isError])
    | other => simpa [streamXML] using ih reg hrest
    | statistik res =>
      cases res with
      | none => simp [streamXML, ih reg hrest]
      | some s =>
        by_cases hid : s.plateId = ""
        · simpa [streamXML, hid] using ih reg hrest
        · simp [streamXML, hid,
            ih (regInsert reg s.plateId s.descText) hrest]

theorem keepEntry_iff (e : ZipEntry) :
    keepEntry e = true ↔
      e.isDir = false ∧ strEndsWith (lowerStr e.name) ".xml" = true := by
  simp [keepEntry]

theorem processEntries_skip (e : ZipEntry) (rest : List ZipEntry)
    (reg : Registry) (h : keepEntry e = false) :
    processEntries (e :: rest) reg = processEntries rest reg := by
  have hc : (e.isDir || !(strEndsWith (lowerStr e.name) ".xml")) = true := by
    simp only [keepEntry, Bool.and_eq_false_iff] at h
    rcases h with h | h
    · simp [Bool.not_eq_false] at h
      simp [h]
    · simp [h]
  rw [processEntries, if_pos hc]

theorem processEntries_filter (entries : List ZipEntry) (reg : Registry) :
    processEntries entries reg =
      processEntries (entries.filter keepEntry) reg := by
  induction entries generalizing reg with
  | nil => rfl
  | cons e rest ih =>
    by_cases hk : keepEntry e = true
    · have hc : (e.isDir || !(strEndsWith (lowerStr e.name) ".xml")) = false := by
        obtain ⟨h1, h2⟩ := (keepEntry_iff e).mp hk
        simp [h1, h2]
      rw [List.filter_cons_of_pos hk]
      rw [processEntries, processEntries, hc]
      simp only [Bool.false_eq_true, if_false]
      by_cases ho : e.openOk
      · simp only [ho, Bool.not_true, Bool.false_eq_true, if_false]
        cases (streamXML e.tokens reg).streamErr <;> simp [ih]
      · have ho' : e.openOk = false := by simpa using ho
        simp only [ho', Bool.not_false, if_true]
        rw [ih reg]
    · have hk' : keepEntry e = false := by simpa using hk
      rw [processEntries_skip e rest reg hk', List.filter_cons_of_neg (by simp [hk']),
        ih reg]

theorem processEntries_openFail (e : ZipEntry) (rest : List ZipEntry)
    (reg : Registry) (hk : keepEntry e = true) (ho : e.openOk = false) :
    processEntries (e :: rest) reg =
      ⟨(processEntries rest reg).processedCount,
        (processEntries rest reg).registry,
        (processEntries rest reg).warnings + 1⟩ := by
  have hc : (e.isDir || !(strEndsWith (lowerStr e.name) ".xml")) = false := by
    obtain ⟨h1, h2⟩ := (keepEntry_iff e).mp hk
    simp [h1, h2]
  rw [processEntries, hc]
  simp [ho]

theorem processEntries_scanErr (e : ZipEntry) (rest : List ZipEntry)
    (reg : Registry) (err : String) (hk : keepEntry e = true)
    (ho : e.openOk = true)
    (hs : (streamXML e.tokens reg).streamErr = some err) :
    processEntries (e :: rest) reg =
      ⟨(processEntries rest (streamXML e.tokens reg).registry).processedCount,
        (processEntries rest (streamXML e.tokens reg).registry).registry,
        (processEntries rest (streamXML e.tokens reg).registry).warnings
          + (streamXML e.tokens reg).warnings + 1⟩ := by
  have hc : (e.isDir || !(strEndsWith (lowerStr e.name) ".xml")) = false := by
    obtain ⟨h1, h2⟩ := (keepEntry_iff e).mp hk
    simp [h1, h2]
  rw [processEntries, hc]
  simp [ho, hs]

theorem processEntries_scanOk (e : ZipEntry) (rest : List ZipEntry)
    (reg : Registry) (hk : keepEntry e = true) (ho : e.openOk = true)
    (hs : (streamXML e.tokens reg).streamErr = none) :
    processEntries (e :: rest) reg =
      ⟨(processEntries rest (streamXML e.tokens reg).registry).processedCount
          + (streamXML e.tokens reg).count,
        (processEntries rest (streamXML e.tokens reg).registry).registry,
        (processEntries rest (streamXML e.tokens reg).registry).warnings
          + (streamXML e.tokens reg).warnings⟩ := by
  have hc : (e.isDir || !(strEndsWith (lowerStr e.name) ".xml")) = false := by
    obtain ⟨h1, h2⟩ := (keepEntry_iff e).mp hk
    simp [h1, h2]
  rw [processEntries, hc]
  simp [ho, hs]

theorem findNewestZipAux_eq_pickBest (entries : List FtpEntry)
    (best : Option FtpEntry) :
    findNewestZipAux best entries =
      pickBest best (entries.filter isZipCandidate) := by
  induction entries generalizing best with
  | nil => cases best <;> rfl
  | cons e rest ih =>
    by_cases hc : isZipCandidate e = true
    · rw [List.filter_cons_of_pos hc]
      cases best with
      | none =>
        rw [findNewestZipAux, if_pos (by simpa [isZipCandidate] using hc)]
        exact ih (some e)
      | some cur =>
        rw [findNewestZipAux, if_pos (by simpa [isZipCandidate] using hc)]
        by_cases ht : cur.time < e.time
        · rw [if_pos ht, pickBest, if_pos ht]
          exact ih (some e)
        · rw [if_neg ht, pickBest, if_neg ht]
          exact ih (some cur)
    · have hc' : isZipCandidate e = false := by simpa using hc
      have hcond : ((e.typ == EntryType.file) && strEndsWith e.name ".zip") = false := hc'
      rw [List.filter_cons_of_neg (by simp [hc'])]
      cases best with
      | none =>
        rw [findNewestZipAux, if_neg (by simp [hcond])]
        exact ih none
      | some cur =>
        rw [findNewestZipAux, if_neg (by simp [hcond])]
        exact ih (some cur)

theorem pickBest_some (cs : List FtpEntry) : ∀ b : FtpEntry,
    ∃ r, pickBest (some b) cs = some r ∧ r ∈ b :: cs
      ∧ (∀ c ∈ b :: cs, c.time ≤ r.time)
      ∧ (b :: cs).find? (fun c => decide (r.time ≤ c.time)) = some r := by
  induction cs with
  | nil =>
    intro b
    refine ⟨b, rfl, List.mem_cons_self b [], ?_, ?_⟩
    · intro c hc
      rcases List.mem_cons.mp hc with rfl | hc
      · exact le_refl c.time
      · simp at hc
    · simp [List.find?]
  | cons c cs ih =>
    intro b
    by_cases ht : b.time < c.time
    · obtain ⟨r, hr, hmem, hmax, hfind⟩ := ih c
      have hbr : b.time < r.time :=
        lt_of_lt_of_le ht (hmax c (List.mem_cons_self c cs))
      refine ⟨r, ?_, List.mem_cons_of_mem b hmem, ?_, ?_⟩
      · rw [pickBest, if_pos ht]
        exact hr
      · intro x hx
        rcases List.mem_cons.mp hx with rfl | hx
        · exact le_of_lt hbr
        · exact hmax x hx
      · rw [List.find?_cons_of_neg, hfind]
        simpa using not_le_of_lt hbr
    · have htc : c.time ≤ b.time := le_of_not_lt ht
      obtain ⟨r, hr, hmem, hmax, hfind⟩ := ih b
      have hbrle : b.time ≤ r.time := hmax b (List.mem_cons_self b cs)
      have hpick : pickBest (some b) (c :: cs) = some r := by
        rw [pickBest, if_neg ht]
        exact hr
      have hmem' : r ∈ b :: c :: cs := by
        rcases List.mem_cons.mp hmem with rfl | hmm
        · exact List.mem_cons_self r _
        · exact List.mem_cons_of_mem b (List.mem_cons_of_mem c hmm)
      have hmax' : ∀ x ∈ b :: c :: cs, x.time ≤ r.time := by
        intro x hx
        rcases List.mem_cons.mp hx with rfl | hx
        · exact hbrle
        rcases List.mem_cons.mp hx with rfl | hx
        · exact le_trans htc hbrle
        · exact hmax x (List.mem_cons_of_mem b hx)
      by_cases hpb : r.time ≤ b.time
      · have hfb : (b :: cs).find? (fun x => decide (r.time ≤ x.time)) = some b :=
          List.find?_cons_of_pos cs (by simpa using hpb)
        have hrb : r = b := by
          rw [hfb] at hfind
          exact (Option.some.inj hfind).symm
        refine ⟨r, hpick, hmem', hmax', ?_⟩
        subst hrb
        exact List.find?_cons_of_pos (c :: cs) (decide_eq_true hpb)
      · have hbrlt : b.time < r.time := lt_of_not_le hpb
        have hfb : (b :: cs).find? (fun x => decide (r.time ≤ x.time)) =
            cs.find? (fun x => decide (r.time ≤ x.time)) :=
          List.find?_cons_of_neg cs (by simpa using hpb)
        have hfcs : cs.find? (fun x => decide (r.time ≤ x.time)) = some r := by
          rw [hfb] at hfind
          exact hfind
        refine ⟨r, hpick, hmem', hmax', ?_⟩
        rw [List.find?_cons_of_neg, List.find?_cons_of_neg, hfcs]
        · simpa using not_le_of_lt (lt_of_le_of_lt htc hbrlt)
        · simpa using hpb

theorem findNewestZip_eq_pickBest (entries : List FtpEntry) :
    findNewestZip entries = pickBest none (entries.filter isZipCandidate) :=
  findNewestZipAux_eq_pickBest entries none

theorem findNewestZip_none_iff (entries : List FtpEntry) :
    findNewestZip entries = none ↔ entries.filter isZipCandidate = [] := by
  rw [findNewestZip_eq_pickBest]
  cases hf : entries.filter isZipCandidate with
  | nil => simp [pickBest]
  | cons c cs =>
    obtain ⟨r, hr, _, _, _⟩ := pickBest_some cs c
    rw [show pickBest none (c :: cs) = pickBest (some c) cs from rfl, hr]
    simp

theorem read_relays (pr : ProgressReader) (chunk : ReadOutcome) :
    (pr.read chunk).2.1 = chunk := by
  rw [ProgressReader.read]
  by_cases h : (0 : Int) < pr.total
  · rw [if_pos h]
    by_cases h2 : pr.lastPrint < (pr.current + chunk.data.length) * 100 / pr.total.toNat
    · rw [if_pos h2]
    · rw [if_neg h2]
  · rw [if_neg h]

theorem runReads_relays (pr : ProgressReader) (cs : List ReadOutcome) :
    (runReads pr cs).2.1 = cs := by
  induction cs generalizing pr with
  | nil => rfl
  | cons c rest ih =>
    rw [runReads]
    simp only [read_relays]
    rw [ih]

theorem read_total (pr : ProgressReader) (chunk : ReadOutcome) :
    (pr.read chunk).1.total = pr.total := by
  rw [ProgressReader.read]
  by_cases h : (0 : Int) < pr.total
  · rw [if_pos h]
    by_cases h2 : pr.lastPrint < (pr.current + chunk.data.length) * 100 / pr.total.toNat
    · rw [if_pos h2]
    · rw [if_neg h2]
  · rw [if_neg h]

theorem read_noTotal (pr : ProgressReader) (chunk : ReadOutcome)
    (h : pr.total ≤ 0) :
    (pr.read chunk).2.2 = none ∧ (pr.read chunk).1.lastPrint = pr.lastPrint := by
  rw [ProgressReader.read, if_neg (not_lt_of_le h)]
  exact ⟨rfl, rfl⟩

theorem runReads_noTotal (pr : ProgressReader) (cs : List ReadOutcome)
    (h : pr.total ≤ 0) :
    (runReads pr cs).2.2 = [] := by
  induction cs generalizing pr with
  | nil => rfl
  | cons c rest ih =>
    rw [runReads]
    simp only [(read_noTotal pr c h).1]
    exact ih (pr.read c).1 ((read_total pr c) ▸ h)

theorem read_emit_cases (pr : ProgressReader) (chunk : ReadOutcome) :
    ((pr.read chunk).2.2 = none ∧ (pr.read chunk).1.lastPrint = pr.lastPrint)
    ∨ ∃ p, (pr.read chunk).2.2 = some p ∧ (pr.read chunk).1.lastPrint = p
        ∧ pr.lastPrint < p := by
  rw [ProgressReader.read]
  by_cases h : (0 : Int) < pr.total
  · by_cases h2 : pr.lastPrint < (pr.current + chunk.data.length) * 100 / pr.total.toNat
    · right
      refine ⟨(pr.current + chunk.data.length) * 100 / pr.total.toNat, ?_, ?_, h2⟩
      · rw [if_pos h, if_pos h2]
      · rw [if_pos h, if_pos h2]
    · left
      rw [if_pos h, if_neg h2]
      exact ⟨rfl, rfl⟩
  · left
    rw [if_neg h]
    exact ⟨rfl, rfl⟩

theorem runReads_chain (pr : ProgressReader) (cs : List ReadOutcome) :
    List.Chain (· < ·) pr.lastPrint (runReads pr cs).2.2 := by
  induction cs generalizing pr with
  | nil => exact List.Chain.nil
  | cons c rest ih =>
    rw [runReads]
    rcases read_emit_cases pr c with ⟨hn, hl⟩ | ⟨p, hs, hl, hlt⟩
    · simp only [hn]
      have := ih (pr.read c).1
      rw [hl] at this
      exact this
    · simp only [hs]
      exact List.Chain.cons hlt (hl ▸ ih (pr.read c).1)

theorem runReads_lastPrint (pr : ProgressReader) (cs : List ReadOutcome) :
    (runReads pr cs).1.lastPrint =
      ((runReads pr cs).2.2).getLast?.getD pr.lastPrint := by
  induction cs generalizing pr with
  | nil => rfl
  | cons c rest ih =>
    rw [runReads]
    rcases read_emit_cases pr c with ⟨hn, hl⟩ | ⟨p, hs, hl, _⟩
    · simp only [hn]
      rw [ih (pr.read c).1, hl]
    · simp only [hs]
      rw [ih (pr.read c).1, hl]
      cases hrest : (runReads (pr.read c).1 rest).2.2 with
      | nil => simp
      | cons q qs =>
        rw [List.getLast?_cons_cons,
          List.getLast?_eq_getLast_of_ne_nil (List.cons_ne_nil q qs)]
        rfl

theorem read_emit_iff (pr : ProgressReader) (chunk : ReadOutcome) (p : Nat)
    (h : 0 < pr.total) :
    (pr.read chunk).2.2 = some p ↔
      (p = (pr.current + chunk.data.length) * 100 / pr.total.toNat
        ∧ pr.lastPrint < p) := by
  rw [ProgressReader.read, if_pos h]
  by_cases h2 : pr.lastPrint < (pr.current + chunk.data.length) * 100 / pr.total.toNat
  · rw [if_pos h2]
    constructor
    · intro hh
      have := Option.some.inj hh
      exact ⟨this.symm, this ▸ h2⟩
    · rintro ⟨rfl, _⟩
      rfl
  · rw [if_neg h2]
    constructor
    · intro hh
      simp at hh
    · rintro ⟨rfl, hlt⟩
      exact absurd hlt h2

/-! ## The claims -/

/-- Claim C1: for every sequence of record elements fed to the scanner,
the final registry size equals the number of distinct non-empty
identifiers among successfully decoded records; for each such identifier
the stored description is the one from the last occurrence in stream
order (unconditional overwrite, no history); and no key in the registry
is ever the empty string. -/
theorem claim_C1_registry_final_state (tokens : List XmlToken) :
    (streamXML tokens []).registry.length = (nonemptyIds tokens).dedup.length
    ∧ (∀ k : String, k ≠ "" →
        List.lookup k (streamXML tokens []).registry = lastDesc k tokens)
    ∧ (∀ p ∈ (streamXML tokens []).registry, p.1 ≠ "") := by
  refine ⟨?_, ?_, ?_⟩
  · have hnodup : ((streamXML tokens []).registry.map Prod.fst).Nodup :=
      streamXML_nodup_keys tokens [] (by simp)
    have hmem : ∀ k, k ∈ (streamXML tokens []).registry.map Prod.fst ↔
        k ∈ nonemptyIds tokens := by
      intro k
      rw [streamXML_mem_keys tokens [] k]
      simp
    have hperm : List.Perm ((streamXML tokens []).registry.map Prod.fst)
        ((nonemptyIds tokens).dedup) :=
      (List.perm_ext_iff_of_nodup hnodup (List.nodup_dedup _)).mpr
        (fun a => by rw [hmem a, List.mem_dedup])
    have hlm : (streamXML tokens []).registry.length
        = ((streamXML tokens []).registry.map Prod.fst).length := by
      rw [List.length_map]
    rw [hlm]
    exact hperm.length_eq
  · intro k hk
    rw [streamXML_lookup tokens [] k hk]
    simp [List.lookup]
  · exact streamXML_keys_nonempty tokens [] (by simp)

/-- Witness for C1: the spec scenario — registering "AB12345" twice with
descriptions "Toyota Corolla" then "Toyota Yaris" leaves the lookup at
"Toyota Yaris" and the size at 1. -/
theorem claim_C1_registry_final_state_witness :
    (streamXML demoTokens []).registry.length = 1
    ∧ List.lookup "AB12345" (streamXML demoTokens []).registry
        = some "Toyota Yaris" := by
  have h := claim_C1_registry_final_state demoTokens
  refine ⟨?_, ?_⟩
  · rw [h.1]
    rfl
  · rw [h.2.1 "AB12345" (by decide)]
    rfl

/-- Claim C6: a successfully decoded record with a non-empty identifier
registers exactly `make ++ " " ++ model` under that identifier (even when
make or model is empty); a record with an empty identifier is discarded
silently — same registry, same count, same warnings, same error. -/
theorem claim_C6_record_registration (s : Statistik) (rest : List XmlToken)
    (reg : Registry) :
    (s.plateId ≠ "" →
      streamXML (XmlToken.statistik (some s) :: rest) reg =
        ⟨(streamXML rest (regInsert reg s.plateId
            (s.makeName ++ " " ++ s.modelName))).count + 1,
          (streamXML rest (regInsert reg s.plateId
            (s.makeName ++ " " ++ s.modelName))).registry,
          (streamXML rest (regInsert reg s.plateId
            (s.makeName ++ " " ++ s.modelName))).streamErr,
          (streamXML rest (regInsert reg s.plateId
            (s.makeName ++ " " ++ s.modelName))).warnings⟩)
    ∧ (s.plateId ≠ "" →
        List.lookup s.plateId (regInsert reg s.plateId s.descText)
          = some (s.makeName ++ " " ++ s.modelName))
    ∧ (s.plateId = "" →
        streamXML (XmlToken.statistik (some s) :: rest) reg =
          streamXML rest reg) := by
  refine ⟨?_, ?_, ?_⟩
  · intro h
    rw [streamXML, if_pos h]
    rfl
  · intro h
    exact lookup_regInsert_self reg s.plateId s.descText
  · intro h
    rw [streamXML, if_neg (fun hc => hc h)]

/-- Witness for C6: a record whose make and model are both empty is
registered with the single-space description " "; a record with an empty
identifier leaves the scan unchanged. -/
theorem claim_C6_record_registration_witness :
    List.lookup "XY99999"
        (regInsert [] "XY99999" (Statistik.descText (mkStat "XY99999" "" "")))
        = some " "
    ∧ streamXML [XmlToken.statistik (some (mkStat "" "A" "B"))] []
        = streamXML [] [] := by
  refine ⟨?_, ?_⟩
  · have h := (claim_C6_record_registration (mkStat "XY99999" "" "") [] []).2.1
      (by decide)
    exact h
  · exact (claim_C6_record_registration (mkStat "" "A" "B") [] []).2.2 rfl

/-- Claim C8: the progress wrapper is purely observational — for every
wrapped read the relayed chunk (its bytes, hence the byte count, and its
error value) is exactly the one the underlying source produced, and over
any sequence of reads the relayed sequence equals the produced one. -/
theorem claim_C8_relay_transparency (pr : ProgressReader) (chunk : ReadOutcome)
    (cs : List ReadOutcome) :
    (pr.read chunk).2.1 = chunk ∧ (runReads pr cs).2.1 = cs :=
  ⟨read_relays pr chunk, runReads_relays pr cs⟩

/-- Claim C10: a single scan call adds at most as many new keys to the
registry as the processed count it returns, and the returned count equals
the number of successfully decoded records with a non-empty identifier
encountered before the scan stops — whether it completes normally or ends
early at a stream error. -/
theorem claim_C10_scan_accounting (tokens : List XmlToken) (reg : Registry) :
    (streamXML tokens reg).count = (nonemptyIds tokens).length
    ∧ ∃ ext, (streamXML tokens reg).registry.map Prod.fst
          = reg.map Prod.fst ++ ext
        ∧ ext.length ≤ (streamXML tokens reg).count :=
  ⟨streamXML_count tokens reg, streamXML_keys_ext tokens reg⟩

/-- Claim C3: a decode failure of a single record element is skipped and
scanning continues (never fatal for the entry: an error-free token stream
yields no stream error no matter how many decode failures it holds); a
token-stream failure stops the scan and returns the count, registry and
warnings accumulated so far together with the error; the caller keeps
going with the remaining entries; and the scenario archive — one entry
with 3 well-formed records and 1 malformed record — yields processed
count 3, one warning, and overall success. -/
theorem claim_C3_error_granularity :
    (∀ (tokens : List XmlToken) (reg : Registry),
      (∀ t ∈ tokens, t.isError = false) →
      (streamXML tokens reg).streamErr = none)
    ∧ (∀ (pre post : List XmlToken) (e : String) (reg : Registry),
        (∀ t ∈ pre, t.isError = false) →
        streamXML (pre ++ XmlToken.tokenError e :: post) reg =
          ⟨(streamXML pre reg).count, (streamXML pre reg).registry,
            some e, (streamXML pre reg).warnings⟩)
    ∧ (∀ (en : ZipEntry) (rest : List ZipEntry) (reg : Registry) (err : String),
        keepEntry en = true → en.openOk = true →
        (streamXML en.tokens reg).streamErr = some err →
        processEntries (en :: rest) reg =
          ⟨(processEntries rest (streamXML en.tokens reg).registry).processedCount,
            (processEntries rest (streamXML en.tokens reg).registry).registry,
            (processEntries rest (streamXML en.tokens reg).registry).warnings
              + (streamXML en.tokens reg).warnings + 1⟩)
    ∧ processZipFile scenarioArchive [] =
        Except.ok ⟨3,
          [("AA11111", "Toyota Corolla"), ("BB22222", "Volvo V60"),
            ("CC33333", "Ford Focus")], 1⟩ := by
  refine ⟨streamXML_noErr, streamXML_splitErr, processEntries_scanErr, ?_⟩
  rfl

/-- Witness for C3: a stream error after one good record returns count 1,
the record already inserted, and the error. -/
theorem claim_C3_error_granularity_witness :
    streamXML
        (XmlToken.statistik (some (mkStat "AA11111" "Toyota" "Corolla"))
          :: XmlToken.tokenError "bad" :: []) [] =
      ⟨1, [("AA11111", "Toyota Corolla")], some "bad", 0⟩ := by
  have h := claim_C3_error_granularity.2.1
    [XmlToken.statistik (some (mkStat "AA11111" "Toyota" "Corolla"))]
    [] "bad" [] (by decide)
  exact h.trans (by decide)

/-- Claim C4: the archive reader processes exactly the non-directory
entries whose lowercased name ends with ".xml" (skipped entries change
nothing in the outcome), and an entry that fails to open is skipped with
one warning while processing continues with the next entries. -/
theorem claim_C4_entry_filtering :
    (∀ (entries : List ZipEntry) (reg : Registry),
      processEntries entries reg =
        processEntries (entries.filter keepEntry) reg)
    ∧ (∀ (e : ZipEntry) (rest : List ZipEntry) (reg : Registry),
        keepEntry e = true → e.openOk = false →
        processEntries (e :: rest) reg =
          ⟨(processEntries rest reg).processedCount,
            (processEntries rest reg).registry,
            (processEntries rest reg).warnings + 1⟩)
    ∧ (∀ (e : ZipEntry) (rest : List ZipEntry) (reg : Registry),
        keepEntry e = false →
        processEntries (e :: rest) reg = processEntries rest reg)
    ∧ (∀ (e : ZipEntry) (rest : List ZipEntry) (reg : Registry),
        keepEntry e = true → e.openOk = true →
        (streamXML e.tokens reg).streamErr = none →
        processEntries (e :: rest) reg =
          ⟨(processEntries rest (streamXML e.tokens reg).registry).processedCount
              + (streamXML e.tokens reg).count,
            (processEntries rest (streamXML e.tokens reg).registry).registry,
            (processEntries rest (streamXML e.tokens reg).registry).warnings
              + (streamXML e.tokens reg).warnings⟩) :=
  ⟨processEntries_filter, processEntries_openFail, processEntries_skip,
    processEntries_scanOk⟩

/-- Witness for C4: an entry named with an uppercase ".XML" extension
that fails to open is skipped with one warning; a directory entry and a
".txt" entry are skipped outright. -/
theorem claim_C4_entry_filtering_witness :
    processEntries [⟨"broken.XML", false, false, []⟩] [] = ⟨0, [], 1⟩
    ∧ processEntries [⟨"sub.xml", true, true, []⟩] [] = processEntries [] []
    ∧ processEntries [⟨"notes.txt", false, true, []⟩] [] = processEntries [] [] := by
  refine ⟨?_, ?_, ?_⟩
  · have h := claim_C4_entry_filtering.2.1 ⟨"broken.XML", false, false, []⟩ [] []
      (by decide) rfl
    exact h.trans (by decide)
  · exact claim_C4_entry_filtering.2.2.1 ⟨"sub.xml", true, true, []⟩ [] [] (by decide)
  · exact claim_C4_entry_filtering.2.2.1 ⟨"notes.txt", false, true, []⟩ [] [] (by decide)

/-- Claim C2: the source locator returns a descriptor of kind file whose
name ends with ".zip" (case-sensitive) having the maximum modification
timestamp, ties broken in favour of the first-seen survivor (it is the
first candidate whose timestamp is not exceeded), and it fails with the
no-candidate error exactly when no such descriptor exists. -/
theorem claim_C2_newest_zip_selection (entries : List FtpEntry) :
    (findNewestZip entries = none ↔ entries.filter isZipCandidate = [])
    ∧ (∀ e, findNewestZip entries = some e →
        e ∈ entries.filter isZipCandidate
        ∧ (∀ c ∈ entries.filter isZipCandidate, c.time ≤ e.time)
        ∧ (entries.filter isZipCandidate).find?
            (fun c => decide (e.time ≤ c.time)) = some e)
    ∧ (∀ e, locateNewestZip entries = Except.ok e ↔
        findNewestZip entries = some e)
    ∧ (locateNewestZip entries = Except.error "no zip files found in directory"
        ↔ entries.filter isZipCandidate = []) := by
  refine ⟨findNewestZip_none_iff entries, ?_, ?_, ?_⟩
  · intro e he
    rw [findNewestZip_eq_pickBest] at he
    cases hf : entries.filter isZipCandidate with
    | nil =>
      rw [hf] at he
      simp [pickBest] at he
    | cons c cs =>
      rw [hf] at he
      rw [show pickBest none (c :: cs) = pickBest (some c) cs from rfl] at he
      obtain ⟨r, hr, hmem, hmax, hfind⟩ := pickBest_some cs c
      rw [hr] at he
      have hre : e = r := (Option.some.inj he).symm
      subst hre
      exact ⟨hmem, hmax, hfind⟩
  · intro e
    rw [locateNewestZip]
    cases hn : findNewestZip entries with
    | none => simp
    | some r => simp
  · rw [locateNewestZip]
    cases hn : findNewestZip entries with
    | none =>
      simp only [Except.error.injEq]
      constructor
      · intro _
        exact (findNewestZip_none_iff entries).mp hn
      · intro _
        trivial
    | some r =>
      constructor
      · intro hh
        exact absurd hh (by simp)
      · intro hh
        have := (findNewestZip_none_iff entries).mpr hh
        rw [hn] at this
        exact absurd this (by simp)

/-- Witness for C2: on a listing with a non-zip file, a folder named like
a zip, and a timestamp tie between "a.zip" (first seen) and "b.zip", the
locator picks "a.zip"; its timestamp dominates every candidate. -/
theorem claim_C2_newest_zip_selection_witness :
    findNewestZip demoListing = some ⟨"a.zip", 20, 9, EntryType.file⟩
    ∧ (⟨"a.zip", 20, 9, EntryType.file⟩ : FtpEntry)
        ∈ demoListing.filter isZipCandidate
    ∧ ∀ c ∈ demoListing.filter isZipCandidate, c.time ≤ 9 := by
  have hfind : findNewestZip demoListing
      = some ⟨"a.zip", 20, 9, EntryType.file⟩ := by decide
  have h := (claim_C2_newest_zip_selection demoListing).2.1 _ hfind
  exact ⟨hfind, h.1, fun c hc => h.2.1 c hc⟩

/-- Claim C5: from the initial state, the emitted percentages form a
strictly increasing sequence of positive values (so each distinct value
is emitted at most once); a zero or negative declared total emits
nothing; one read emits `floor(current * 100 / total)` exactly when that
value strictly exceeds `lastPrint`; and `lastPrint` always equals the
last emitted value (0 before any emission). -/
theorem claim_C5_progress_monotonicity (total : Int) (cs : List ReadOutcome) :
    List.Chain (fun a b => a < b) 0 (runReads ⟨total, 0, 0⟩ cs).2.2
    ∧ (∀ v, ((runReads ⟨total, 0, 0⟩ cs).2.2).count v ≤ 1)
    ∧ (total ≤ 0 → (runReads ⟨total, 0, 0⟩ cs).2.2 = [])
    ∧ (∀ (pr : ProgressReader) (chunk : ReadOutcome) (p : Nat),
        0 < pr.total →
        ((pr.read chunk).2.2 = some p ↔
          (p = (pr.current + chunk.data.length) * 100 / pr.total.toNat
            ∧ pr.lastPrint < p)))
    ∧ (runReads ⟨total, 0, 0⟩ cs).1.lastPrint
        = ((runReads ⟨total, 0, 0⟩ cs).2.2).getLast?.getD 0 := by
  refine ⟨runReads_chain ⟨total, 0, 0⟩ cs, ?_, ?_, read_emit_iff,
    runReads_lastPrint ⟨total, 0, 0⟩ cs⟩
  · have hch := runReads_chain ⟨total, 0, 0⟩ cs
    have hpw := List.chain_iff_pairwise.mp hch
    have hpw' := (List.pairwise_cons.mp hpw).2
    have hnd : ((runReads ⟨total, 0, 0⟩ cs).2.2).Nodup :=
      hpw'.imp (fun hab => ne_of_lt hab)
    exact List.nodup_iff_count_le_one.mp hnd
  · intro h
    exact runReads_noTotal ⟨total, 0, 0⟩ cs h

/-- Witness for C5: with an unknown (zero) total nothing is emitted; with
total 100 a first read of 50 bytes emits exactly the value 50. -/
theorem claim_C5_progress_monotonicity_witness :
    (runReads ⟨0, 0, 0⟩ [⟨[7, 7], none⟩]).2.2 = []
    ∧ (ProgressReader.read ⟨100, 0, 0⟩ ⟨List.replicate 50 0, none⟩).2.2
        = some 50 := by
  refine ⟨(claim_C5_progress_monotonicity 0 [⟨[7, 7], none⟩]).2.2.1 (by decide), ?_⟩
  exact ((claim_C5_progress_monotonicity 100 []).2.2.2.1 ⟨100, 0, 0⟩
    ⟨List.replicate 50 0, none⟩ 50 (by decide)).mpr (by decide)

theorem pairwiseKeyLt (l : List (String × String))
    (hle : l.Pairwise plateLE) (hne : l.Pairwise (fun a b => a.1 ≠ b.1)) :
    l.Pairwise (fun a b => a.1 < b.1) := by
  induction l with
  | nil => exact List.Pairwise.nil
  | cons a t ih =>
    rcases List.pairwise_cons.mp hle with ⟨h1, h2⟩
    rcases List.pairwise_cons.mp hne with ⟨h3, h4⟩
    exact List.pairwise_cons.mpr
      ⟨fun b hb => lt_of_le_of_ne (h1 b hb) (h3 b hb), ih h2 h4⟩

/-- Claim C7: for a final registry (distinct keys), the printed summary
lists registry entries in strictly ascending lexicographic order of
identifier, prints `min(10, size)` rows — never more than 10 — and prints
the remainder line, carrying the number of unprinted entries, exactly
when the registry holds more than 10 entries. -/
theorem claim_C7_display_summary (reg : Registry)
    (h : (reg.map Prod.fst).Nodup) :
    (displayResults reg).1.length = min 10 reg.length
    ∧ (displayResults reg).1.length ≤ 10
    ∧ List.Pairwise (fun a b => a.1 < b.1) (displayResults reg).1
    ∧ (∀ p ∈ (displayResults reg).1, p ∈ reg)
    ∧ (displayResults reg).2 =
        (if 10 < reg.length then some (reg.length - 10) else none) := by
  have hperm : List.Perm (List.insertionSort plateLE reg) reg :=
    List.perm_insertionSort plateLE reg
  have hlen : (List.insertionSort plateLE reg).length = reg.length :=
    hperm.length_eq
  have hsorted : List.Pairwise plateLE (List.insertionSort plateLE reg) :=
    List.sorted_insertionSort plateLE reg
  have hkeysnodup : ((List.insertionSort plateLE reg).map Prod.fst).Nodup :=
    (hperm.map Prod.fst).nodup_iff.mpr h
  have hpairne : (List.insertionSort plateLE reg).Pairwise
      (fun a b => a.1 ≠ b.1) :=
    List.pairwise_map.mp hkeysnodup
  have hlt : (List.insertionSort plateLE reg).Pairwise
      (fun a b => a.1 < b.1) :=
    pairwiseKeyLt (List.insertionSort plateLE reg) hsorted hpairne
  by_cases hc : (List.insertionSort plateLE reg).length < 10
  · refine ⟨?_, ?_, ?_, ?_, ?_⟩
    · simp only [displayResults, if_pos hc, List.length_take]
      omega
    · simp only [displayResults, if_pos hc, List.length_take]
      omega
    · simp only [displayResults, if_pos hc]
      exact List.Pairwise.sublist (List.take_sublist _ _) hlt
    · intro p hp
      simp only [displayResults, if_pos hc] at hp
      exact hperm.mem_iff.mp (List.take_subset _ _ hp)
    · simp only [displayResults, if_pos hc]
      rw [if_neg (lt_irrefl _), if_neg (by omega)]
  · refine ⟨?_, ?_, ?_, ?_, ?_⟩
    · simp only [displayResults, if_neg hc, List.length_take]
      omega
    · simp only [displayResults, if_neg hc, List.length_take]
      omega
    · simp only [displayResults, if_neg hc]
      exact List.Pairwise.sublist (List.take_sublist _ _) hlt
    · intro p hp
      simp only [displayResults, if_neg hc] at hp
      exact hperm.mem_iff.mp (List.take_subset _ _ hp)
    · simp only [displayResults, if_neg hc]
      rw [hlen]

/-- Witness for C7: a registry of 12 distinct keys prints 10 rows and the
remainder line "... and 2 more". -/
theorem claim_C7_display_summary_witness :
    (displayResults demoReg12).2 = some 2
    ∧ (displayResults demoReg12).1.length = 10 := by
  have h := claim_C7_display_summary demoReg12 (by decide)
  refine ⟨?_, ?_⟩
  · rw [h.2.2.2.2]
    decide
  · rw [h.1]
    decide

/-- Counterexample for C9 as stated: the path "€a" is two characters
long (shorter than four characters), yet `processLocalFile` does not
panic on it — its four bytes make the suffix slice legal, and the
unsupported-file-type error is returned instead. -/
theorem claim_C9_counterexample :
    utf8CharCount [226, 130, 172, 97] < 4
    ∧ processLocalFile [226, 130, 172, 97] ≠ LocalDispatch.panicked := by
  decide

/-- Claim C9 (amended: the dispatch works on the final four BYTES of the
path, not characters): the dispatcher decides the input kind solely from
the lowercased final four bytes, returning the unsupported-file-type
error for any suffix other than ".xml" or ".zip", and for every path
shorter than four bytes the suffix slice indexes out of bounds, so the
call panics instead of returning the unsupported-type error. -/
theorem claim_C9_byte_dispatch (path : List Nat) :
    (path.length < 4 → processLocalFile path = LocalDispatch.panicked)
    ∧ (4 ≤ path.length →
        processLocalFile path =
          (if (path.drop (path.length - 4)).map toLowerByte = xmlExtBytes then
            LocalDispatch.xmlBranch
          else if (path.drop (path.length - 4)).map toLowerByte = zipExtBytes then
            LocalDispatch.zipBranch
          else LocalDispatch.unsupported))
    ∧ (∀ q : List Nat, 4 ≤ path.length → 4 ≤ q.length →
        (path.drop (path.length - 4)).map toLowerByte
          = (q.drop (q.length - 4)).map toLowerByte →
        processLocalFile path = processLocalFile q) := by
  have hdis : ∀ r : List Nat, 4 ≤ r.length →
      processLocalFile r =
        (if (r.drop (r.length - 4)).map toLowerByte = xmlExtBytes then
          LocalDispatch.xmlBranch
        else if (r.drop (r.length - 4)).map toLowerByte = zipExtBytes then
          LocalDispatch.zipBranch
        else LocalDispatch.unsupported) := by
    intro r hr
    rw [processLocalFile, if_neg (not_lt.mpr hr)]
  refine ⟨?_, hdis path, ?_⟩
  · intro h
    rw [processLocalFile, if_pos h]
  · intro q hp hq heq
    rw [hdis path hp, hdis q hq, heq]

/-- Witness for the amended C9: "a.XML" (five bytes) dispatches to the
xml branch through the lowercased byte suffix; a one-byte path panics. -/
theorem claim_C9_byte_dispatch_witness :
    processLocalFile [97, 46, 88, 77, 76] = LocalDispatch.xmlBranch
    ∧ processLocalFile [97] = LocalDispatch.panicked := by
  refine ⟨?_, (claim_C9_byte_dispatch [97]).1 (by decide)⟩
  have h := (claim_C9_byte_dispatch [97, 46, 88, 77, 76]).2.1 (by decide)
  exact h.trans (by decide)
